import Mathlib

namespace ScreenArc

/-!
# Formal model of the ScreenArc rendering/export pipeline

A shallow embedding, over `ℚ` and `ℤ`, of the pure computations of the
ScreenArc export pipeline: the export-duration formula, the render-loop
progress reports, webcam timestamp scaling and clamping, the bounded pan of
the camera transform engine, the full camera transform (`transform.ts`) with
its hidden pan-smoothing state made explicit, the webcam overlay geometry of
the scene compositor, the audio resegmentation pre-pass, the `atempo` filter
chain builder, and the sequential video frame provider.

JavaScript numbers are modelled as rationals `ℚ` (integer microsecond
timestamps as `ℤ`); all definitions follow the TypeScript source.
-/

/-! ## Export duration and frame count

From the renderer worker (`RendererPage`, section "CALCULATE EXPORT DURATION
AND FRAMES"): starting from the source duration, each cut region's duration is
subtracted, each speed region's duration is replaced by `duration / speed`,
and the result is clamped at 0.  `totalFrames = Math.floor(exportDuration * fps)`
and the loop runs `frame = 0 … totalFrames - 1`. -/

/-- `exportDuration` computed before the export render loop: fold over cut
regions subtracting each duration, then over speed regions replacing each
duration `d` by `d / speed`, clamped to be nonnegative. -/
def exportDuration (duration : ℚ) (cutDurations : List ℚ)
    (speedRegions : List (ℚ × ℚ)) : ℚ :=
  max 0 (speedRegions.foldl (fun acc r => acc - r.1 + r.1 / r.2)
    (cutDurations.foldl (fun acc d => acc - d) duration))

/-- `totalFrames = Math.floor(exportDuration * fps)`. -/
def totalFrames (duration : ℚ) (cutDurations : List ℚ)
    (speedRegions : List (ℚ × ℚ)) (fps : ℚ) : ℤ :=
  Int.floor (exportDuration duration cutDurations speedRegions * fps)

/-- The frame indices of the export loop `for (frame = 0; frame < totalFrames; frame++)`. -/
def exportLoopFrames (duration : ℚ) (cutDurations : List ℚ)
    (speedRegions : List (ℚ × ℚ)) (fps : ℚ) : List ℕ :=
  List.range (totalFrames duration cutDurations speedRegions fps).toNat

/-! ## Export progress reporting

Two render loops exist in the sources.  The decoder-driven loop (the
`RendererPage` embedded next to the frame provider) reports
`Math.min(99, ((frame + 1) / totalFrames) * 100)` both for `lastProgress`
(hardware-encoder path) and for the raw-frame path.  The legacy seek-driven
loop (`src/pages/RendererPage.tsx`) reports the unclamped value
`((frame + 1) / totalFrames) * 100`. -/

/-- Per-frame progress of the decoder-driven export loop:
`Math.min(99, ((frame + 1) / totalFrames) * 100)`. -/
def renderProgress (frame nFrames : ℕ) : ℚ :=
  min 99 (((frame : ℚ) + 1) / (nFrames : ℚ) * 100)

/-- Per-frame progress of the legacy seek-driven render loop
(`src/pages/RendererPage.tsx`): `((frame + 1) / totalFrames) * 100`, no clamp. -/
def legacyRenderProgress (frame nFrames : ℕ) : ℚ :=
  ((frame : ℚ) + 1) / (nFrames : ℚ) * 100

/-! ## Webcam timestamp scaling and clamping

From the decoder-driven export loop:
`webcamTimeScale = hasWebcam && webcamDuration > 0 && mainDuration > 0 ?
webcamDuration / mainDuration : 1` and
`webcamTimestamp = Math.max(0, Math.min(sourceTimestamp * webcamTimeScale,
Math.max(0, webcamDuration - 1 / fps)))`. -/

/-- The linear webcam time scale factor. -/
def webcamTimeScale (hasWebcam : Bool) (webcamDuration mainDuration : ℚ) : ℚ :=
  if hasWebcam ∧ 0 < webcamDuration ∧ 0 < mainDuration then
    webcamDuration / mainDuration
  else 1

/-- The timestamp used to query the webcam frame provider. -/
def webcamTimestamp (sourceTimestamp scale webcamDuration fps : ℚ) : ℚ :=
  max 0 (min (sourceTimestamp * scale) (max 0 (webcamDuration - 1 / fps)))

/-! ## Transform engine (`src/lib/transform.ts`)

The camera transform.  Mouse positions, geometry and dimensions are pairs of
rationals.  `Math.sqrt`-based distance comparison in the dead-zone test is
embedded as the equivalent comparison of squared distances (both sides are
nonnegative, and squaring is monotone on nonnegatives). -/

/-- A mouse metadata item, restricted to the fields `transform.ts` reads. -/
structure MetaDataItem where
  timestamp : ℚ
  x : ℚ
  y : ℚ
deriving DecidableEq

/-- Linear interpolation: `start * (1 - t) + end * t`. -/
def lerp (a b t : ℚ) : ℚ := a * (1 - t) + b * t

/-- `DEFAULTS.CAMERA.MOVEMENT.SMOOTHING_FACTOR`. -/
def SMOOTHING_FACTOR : ℚ := 7 / 100

/-- `DEFAULTS.CAMERA.MOVEMENT.DEAD_ZONE` (pixels). -/
def DEAD_ZONE : ℚ := 10

/-- `DEFAULTS.CAMERA.MOVEMENT.SMOOTHING_WINDOW` (seconds). -/
def SMOOTHING_WINDOW : ℚ := 1 / 2

/-- `PAN_SMOOTHING_FACTOR` (module constant in `transform.ts`). -/
def PAN_SMOOTHING_FACTOR : ℚ := 15 / 100

/-- One step of the binary search of `findLastMetadataIndex`.  The `fuel`
argument only bounds the loop: the search interval shrinks strictly on every
iteration, so `metadata.length + 2` iterations always suffice. -/
def findLastAux (ts : List ℚ) (t : ℚ) : ℕ → ℤ → ℤ → ℤ → ℤ
  | 0, _, _, result => result
  | fuel + 1, left, right, result =>
    if left ≤ right then
      let mid : ℤ := (left + right) / 2
      if (ts.getD mid.toNat 0) ≤ t then
        findLastAux ts t fuel (mid + 1) right mid
      else
        findLastAux ts t fuel left (mid - 1) result
    else result

/-- `findLastMetadataIndex`: index of the last metadata item with
`timestamp ≤ currentTime`, by binary search; `-1` if there is none. -/
def findLastMetadataIndex (metadata : List MetaDataItem) (currentTime : ℚ) : ℤ :=
  if metadata.length = 0 then -1
  else
    findLastAux (metadata.map (·.timestamp)) currentTime
      (metadata.length + 2) 0 (metadata.length - 1) (-1)

/-- Indexing helper: `metadata[i]` (in-source accesses are always in bounds). -/
def mdGet (metadata : List MetaDataItem) (i : ℕ) : MetaDataItem :=
  metadata.getD i ⟨0, 0, 0⟩

/-- The EMA loop body of `getSmoothedMousePosition`: the dead zone damps the
smoothing factor to 30 % for movements not larger than `DEAD_ZONE` (compared
on squared distances). -/
def emaStep (sm : ℚ × ℚ) (cur : ℚ × ℚ) : ℚ × ℚ :=
  let deltaX := cur.1 - sm.1
  let deltaY := cur.2 - sm.2
  let effectiveSmoothingFactor :=
    if DEAD_ZONE * DEAD_ZONE < deltaX * deltaX + deltaY * deltaY then
      SMOOTHING_FACTOR
    else SMOOTHING_FACTOR * (3 / 10)
  (lerp sm.1 cur.1 effectiveSmoothingFactor, lerp sm.2 cur.2 effectiveSmoothingFactor)

/-- `getSmoothedMousePosition`: exponential moving average over the trailing
smoothing window, with sub-sample interpolation to the query time. -/
def getSmoothedMousePosition (metadata : List MetaDataItem) (targetTime : ℚ) :
    Option (ℚ × ℚ) :=
  let endIndex := findLastMetadataIndex metadata targetTime
  if endIndex < 0 then none
  else
    let startTime := max 0 (targetTime - SMOOTHING_WINDOW)
    let startIndex0 := findLastMetadataIndex metadata startTime
    let startIndex : ℤ := if startIndex0 < 0 then 0 else startIndex0
    if (metadata.length : ℤ) ≤ startIndex then none
    else
      let si := startIndex.toNat
      let ei := endIndex.toNat
      let first := mdGet metadata si
      let smoothed := (List.range' (si + 1) (ei - si)).foldl
        (fun sm i => emaStep sm ((mdGet metadata i).x, (mdGet metadata i).y))
        (first.x, first.y)
      let lastEvent := mdGet metadata ei
      if ei + 1 < metadata.length then
        let nextEvent := mdGet metadata (ei + 1)
        let timeDiff := nextEvent.timestamp - lastEvent.timestamp
        if 0 < timeDiff then
          let progress := (targetTime - lastEvent.timestamp) / timeDiff
          let finalX := lerp smoothed.1 nextEvent.x SMOOTHING_FACTOR
          let finalY := lerp smoothed.2 nextEvent.y SMOOTHING_FACTOR
          some (lerp smoothed.1 finalX progress, lerp smoothed.2 finalY progress)
        else some smoothed
      else some smoothed

/-- `calculateBoundedPan`: translation that would center the smoothed mouse,
clamped so the visible window stays inside the un-zoomed content rectangle. -/
def calculateBoundedPan (mousePos : Option (ℚ × ℚ)) (origin : ℚ × ℚ)
    (zoomLevel : ℚ) (recordingGeometry : ℚ × ℚ)
    (frameContentDimensions : ℚ × ℚ) : ℚ × ℚ :=
  match mousePos with
  | none => (0, 0)
  | some mouse =>
    let nsmx := mouse.1 / recordingGeometry.1
    let nsmy := mouse.2 / recordingGeometry.2
    let targetFinalPanX :=
      (1 / 2 - ((nsmx - origin.1) * zoomLevel + origin.1)) * frameContentDimensions.1
    let targetFinalPanY :=
      (1 / 2 - ((nsmy - origin.2) * zoomLevel + origin.2)) * frameContentDimensions.2
    let targetTranslateX := targetFinalPanX / zoomLevel
    let targetTranslateY := targetFinalPanY / zoomLevel
    let maxTx := origin.1 * frameContentDimensions.1 * (zoomLevel - 1) / zoomLevel
    let minTx := -((1 - origin.1) * frameContentDimensions.1 * (zoomLevel - 1)) / zoomLevel
    let maxTy := origin.2 * frameContentDimensions.2 * (zoomLevel - 1) / zoomLevel
    let minTy := -((1 - origin.2) * frameContentDimensions.2 * (zoomLevel - 1)) / zoomLevel
    (max minTx (min maxTx targetTranslateX), max minTy (min maxTy targetTranslateY))

/-- `getTransformOrigin`: maps a normalized target in `[-1/2, 1/2]` to a
transform-origin in `[0, 1]`. -/
def getTransformOrigin (targetX targetY : ℚ) : ℚ × ℚ :=
  (targetX + 1 / 2, targetY + 1 / 2)

/-! ### `calculateZoomTransform`

The easing table `EASING_MAP` lives in `lib/easing` (not among the provided
sources), so the easing lookup is parameterized: region easing keys have an
abstract type `E`, `easingMap : E → Option (ℚ → ℚ)` is the table, and
`balanced` is the fallback (`EASING_MAP[easing] || EASING_MAP.Balanced`).
The CSS `transform-origin` string `"x% y%"` is modelled as the pair of its
two percentages.  The module-level mutable `previousPanX/previousPanY/`
`lastPanUpdateTime` globals are made explicit as a `PanState` threaded in and
out. -/

/-- `ZoomRegion.mode`. -/
inductive ZoomMode where
  | auto
  | fixed
deriving DecidableEq

/-- A zoom region, with the fields `transform.ts` reads. -/
structure ZoomRegion (E : Type) where
  startTime : ℚ
  duration : ℚ
  zoomLevel : ℚ
  targetX : ℚ
  targetY : ℚ
  mode : ZoomMode
  easing : E
  transitionDuration : ℚ
deriving DecidableEq

/-- The module-level mutable pan-smoothing state of `transform.ts`. -/
structure PanState where
  previousPanX : ℚ
  previousPanY : ℚ
  lastPanUpdateTime : ℚ
deriving DecidableEq

/-- The result of `calculateZoomTransform` (`transformOrigin` as the pair of
CSS percentages). -/
structure ZoomTransform where
  scale : ℚ
  translateX : ℚ
  translateY : ℚ
  transformOrigin : ℚ × ℚ
deriving DecidableEq

/-- A zoom region is active when `startTime ≤ t < startTime + duration`. -/
def zoomRegionActive {E : Type} (currentTime : ℚ) (r : ZoomRegion E) : Bool :=
  decide (r.startTime ≤ currentTime ∧ currentTime < r.startTime + r.duration)

/-- `calculateZoomTransform`, with the hidden pan-smoothing globals threaded
explicitly: returns the transform together with the updated `PanState`. -/
def calculateZoomTransform {E : Type} (easingMap : E → Option (ℚ → ℚ))
    (balanced : ℚ → ℚ) (currentTime : ℚ) (zoomRegions : List (ZoomRegion E))
    (metadata : List MetaDataItem) (recordingGeometry : ℚ × ℚ)
    (frameContentDimensions : ℚ × ℚ) (ps : PanState) : ZoomTransform × PanState :=
  match zoomRegions.find? (zoomRegionActive currentTime) with
  | none => ({ scale := 1, translateX := 0, translateY := 0, transformOrigin := (50, 50) }, ps)
  | some r =>
    let zoomOutStartTime := r.startTime + r.duration - r.transitionDuration
    let zoomInEndTime := r.startTime + r.transitionDuration
    let fixedOrigin := getTransformOrigin r.targetX r.targetY
    let transformOrigin := (fixedOrigin.1 * 100, fixedOrigin.2 * 100)
    let pans :=
      if r.mode = ZoomMode.auto ∧ metadata.length ≠ 0 ∧ 0 < recordingGeometry.1 then
        (calculateBoundedPan (getSmoothedMousePosition metadata zoomInEndTime)
            fixedOrigin r.zoomLevel recordingGeometry frameContentDimensions,
          calculateBoundedPan (getSmoothedMousePosition metadata currentTime)
            fixedOrigin r.zoomLevel recordingGeometry frameContentDimensions,
          calculateBoundedPan (getSmoothedMousePosition metadata zoomOutStartTime)
            fixedOrigin r.zoomLevel recordingGeometry frameContentDimensions)
      else ((0, 0), (0, 0), (0, 0))
    let initialPan := pans.1
    let livePan := pans.2.1
    let finalPan := pans.2.2
    let easingFn := (easingMap r.easing).getD balanced
    if r.startTime ≤ currentTime ∧ currentTime < zoomInEndTime then
      let t := easingFn ((currentTime - r.startTime) / r.transitionDuration)
      let curX := lerp 0 initialPan.1 t
      let curY := lerp 0 initialPan.2 t
      ({ scale := lerp 1 r.zoomLevel t, translateX := curX, translateY := curY,
          transformOrigin := transformOrigin },
        { previousPanX := curX, previousPanY := curY, lastPanUpdateTime := currentTime })
    else if zoomInEndTime ≤ currentTime ∧ currentTime < zoomOutStartTime then
      let timeDelta := currentTime - ps.lastPanUpdateTime
      let effectiveSmoothingFactor :=
        min PAN_SMOOTHING_FACTOR (if 0 < timeDelta then 1 else 0)
      let curX := lerp ps.previousPanX livePan.1 effectiveSmoothingFactor
      let curY := lerp ps.previousPanY livePan.2 effectiveSmoothingFactor
      ({ scale := r.zoomLevel, translateX := curX, translateY := curY,
          transformOrigin := transformOrigin },
        { previousPanX := curX, previousPanY := curY, lastPanUpdateTime := currentTime })
    else if zoomOutStartTime ≤ currentTime ∧ currentTime ≤ r.startTime + r.duration then
      let t := easingFn ((currentTime - zoomOutStartTime) / r.transitionDuration)
      ({ scale := lerp r.zoomLevel 1 t, translateX := lerp finalPan.1 0 t,
          translateY := lerp finalPan.2 0 t, transformOrigin := transformOrigin },
        { previousPanX := 0, previousPanY := 0, lastPanUpdateTime := currentTime })
    else
      ({ scale := 1, translateX := 0, translateY := 0,
          transformOrigin := transformOrigin }, ps)

/-- The easing table used in the concrete counterexample: every lookup falls
back to the `balanced` default. -/
def cxEasingMap : Unit → Option (ℚ → ℚ) := fun _ => none

/-- One auto-mode zoom region `[0, 10)` with zoom level 2 and 1 s transitions. -/
def cxRegions : List (ZoomRegion Unit) :=
  [{ startTime := 0, duration := 10, zoomLevel := 2, targetX := 0, targetY := 0,
     mode := ZoomMode.auto, easing := (), transitionDuration := 1 }]

/-- A single mouse event at `(0, 0)` at time 0. -/
def cxMetadata : List MetaDataItem := [{ timestamp := 0, x := 0, y := 0 }]

/-- The pan state at module load: `previousPanX = previousPanY =
lastPanUpdateTime = 0`. -/
def initialPanState : PanState :=
  { previousPanX := 0, previousPanY := 0, lastPanUpdateTime := 0 }

/-! ## Scene compositor: webcam overlay geometry (`src/lib/renderer.ts`)

The webcam drawing block of `drawScene`: the overlay size interpolates
between `size` and `sizeOnZoom` using the active zoom region's phase and
easing only when `scaleOnZoom` is set; the anchor position always comes from
`getWebcamRectForPosition`. -/

/-- `DEFAULTS.CAMERA.SCALE_ON_ZOOM_AMOUNT`. -/
def SCALE_ON_ZOOM_AMOUNT : ℚ := 4 / 5

/-- Webcam overlay shape. -/
inductive WebcamShape where
  | circle
  | square
  | rectangle
deriving DecidableEq

/-- Webcam anchor position (`WebcamPosition['pos']`); any unknown value falls
into the `default` switch branch, which behaves as `bottom-right`. -/
inductive WebcamPos where
  | topLeft
  | topCenter
  | topRight
  | leftCenter
  | rightCenter
  | bottomLeft
  | bottomCenter
  | bottomRight
deriving DecidableEq

/-- The webcam style fields the webcam-drawing block of `drawScene` reads. -/
structure WebcamStyles where
  scaleOnZoom : Bool
  size : ℚ
  sizeOnZoom : ℚ
  shape : WebcamShape
  borderRadius : ℚ
  isFlipped : Bool
deriving DecidableEq

/-- An axis-aligned rectangle. -/
structure Rect where
  x : ℚ
  y : ℚ
  width : ℚ
  height : ℚ
deriving DecidableEq

/-- `getWebcamRectForPosition`: anchor rectangle for the configured corner or
edge, with `2 %` edge padding of the smaller output dimension. -/
def getWebcamRectForPosition (pos : WebcamPos) (width height outputWidth outputHeight : ℚ) :
    Rect :=
  let baseSize := min outputWidth outputHeight
  let edgePadding := baseSize * (2 / 100)
  match pos with
  | WebcamPos.topLeft => ⟨edgePadding, edgePadding, width, height⟩
  | WebcamPos.topCenter => ⟨(outputWidth - width) / 2, edgePadding, width, height⟩
  | WebcamPos.topRight => ⟨outputWidth - width - edgePadding, edgePadding, width, height⟩
  | WebcamPos.leftCenter => ⟨edgePadding, (outputHeight - height) / 2, width, height⟩
  | WebcamPos.rightCenter =>
    ⟨outputWidth - width - edgePadding, (outputHeight - height) / 2, width, height⟩
  | WebcamPos.bottomLeft => ⟨edgePadding, outputHeight - height - edgePadding, width, height⟩
  | WebcamPos.bottomCenter =>
    ⟨(outputWidth - width) / 2, outputHeight - height - edgePadding, width, height⟩
  | WebcamPos.bottomRight =>
    ⟨outputWidth - width - edgePadding, outputHeight - height - edgePadding, width, height⟩

/-- The webcam overlay geometry that `drawScene` draws: anchor `(x, y)`,
destination size `(width, height)` (`drawX` after the optional horizontal
flip), plus the shadow size and corner radius. -/
structure WebcamGeometry where
  x : ℚ
  y : ℚ
  width : ℚ
  height : ℚ
  scaledWidth : ℚ
  scaledHeight : ℚ
  radius : ℚ
  drawX : ℚ
deriving DecidableEq

/-- The webcam geometry computation of `drawScene` (renderer webcam block):
`finalWebcamScale`, size interpolation between normal and on-zoom size using
the active zoom region's phase and easing, anchor rectangle, shadow size,
corner radius and flip-corrected draw position. -/
def webcamGeometry {E : Type} (easingMap : E → Option (ℚ → ℚ)) (balanced : ℚ → ℚ)
    (zoomRegions : List (ZoomRegion E)) (styles : WebcamStyles) (pos : WebcamPos)
    (currentTime outputWidth outputHeight : ℚ) : WebcamGeometry :=
  let activeZoomRegion := zoomRegions.find? (zoomRegionActive currentTime)
  let finalWebcamScale : ℚ :=
    if styles.scaleOnZoom then
      match activeZoomRegion with
      | none => 1
      | some r =>
        let zoomInEndTime := r.startTime + r.transitionDuration
        let zoomOutStartTime := r.startTime + r.duration - r.transitionDuration
        let easingFn := (easingMap r.easing).getD balanced
        if currentTime < zoomInEndTime then
          lerp 1 SCALE_ON_ZOOM_AMOUNT
            (easingFn ((currentTime - r.startTime) / r.transitionDuration))
        else if zoomOutStartTime ≤ currentTime then
          lerp SCALE_ON_ZOOM_AMOUNT 1
            (easingFn ((currentTime - zoomOutStartTime) / r.transitionDuration))
        else SCALE_ON_ZOOM_AMOUNT
    else 1
  let baseSize := min outputWidth outputHeight
  let sizes : ℚ × ℚ × ℚ :=
    if styles.scaleOnZoom then
      match activeZoomRegion with
      | none => (styles.size, styles.sizeOnZoom, 0)
      | some r =>
        let zoomInEndTime := r.startTime + r.transitionDuration
        let zoomOutStartTime := r.startTime + r.duration - r.transitionDuration
        let easingFn := (easingMap r.easing).getD balanced
        if currentTime < zoomInEndTime then
          (styles.size, styles.sizeOnZoom,
            easingFn ((currentTime - r.startTime) / r.transitionDuration))
        else if zoomOutStartTime ≤ currentTime then
          (styles.sizeOnZoom, styles.size,
            easingFn ((currentTime - zoomOutStartTime) / r.transitionDuration))
        else (styles.sizeOnZoom, styles.sizeOnZoom, 1)
    else (styles.size, styles.sizeOnZoom, 0)
  let webcamWidth := baseSize * (lerp sizes.1 sizes.2.1 sizes.2.2 / 100)
  let webcamHeight :=
    if styles.shape = WebcamShape.rectangle then webcamWidth * (9 / 16) else webcamWidth
  let webcamRect := getWebcamRectForPosition pos webcamWidth webcamHeight
    outputWidth outputHeight
  let scaledWebcamWidth := webcamRect.width * finalWebcamScale
  let scaledWebcamHeight := webcamRect.height * finalWebcamScale
  let maxRadius := min scaledWebcamWidth scaledWebcamHeight / 2
  let webcamRadius :=
    if styles.shape = WebcamShape.circle then maxRadius
    else maxRadius * (styles.borderRadius / 50)
  let drawX :=
    if styles.isFlipped then outputWidth - webcamRect.x - webcamWidth else webcamRect.x
  { x := webcamRect.x, y := webcamRect.y, width := webcamWidth, height := webcamHeight,
    scaledWidth := scaledWebcamWidth, scaledHeight := scaledWebcamHeight,
    radius := webcamRadius, drawX := drawX }

/-- Concrete webcam styles with `scaleOnZoom = false`. -/
def cxWebcamStyles : WebcamStyles :=
  { scaleOnZoom := false, size := 40, sizeOnZoom := 40, shape := WebcamShape.square,
    borderRadius := 35, isFlipped := false }

/-! ## Audio resegmentation pre-pass (`prepareProcessedAudio`)

The export manager builds the breakpoint set `{0, duration} ∪ cut bounds ∪
speed bounds` (a JS `Set`, then numerically sorted — modelled as `dedup`
followed by a sort, which yields the same strictly ascending list), walks
consecutive breakpoints, skips empty and cut segments, and attaches the speed
of the first speed region containing the segment start. -/

/-- A cut region of the project state. -/
structure CutRegion where
  startTime : ℚ
  duration : ℚ
deriving DecidableEq

/-- A speed region of the project state. -/
structure SpeedRegion where
  startTime : ℚ
  duration : ℚ
  speed : ℚ
deriving DecidableEq

/-- An audio segment emitted by the resegmentation pre-pass. -/
structure AudioSegment where
  start : ℚ
  duration : ℚ
  speed : ℚ
deriving DecidableEq

/-- Cut regions as `(start, end)` pairs. -/
def cutBounds (cuts : List CutRegion) : List (ℚ × ℚ) :=
  cuts.map (fun r => (r.startTime, r.startTime + r.duration))

/-- Speed regions as `(start, end, speed)` triples. -/
def speedBounds (speeds : List SpeedRegion) : List (ℚ × ℚ × ℚ) :=
  speeds.map (fun r => (r.startTime, r.startTime + r.duration, r.speed))

/-- The raw breakpoint times, in insertion order: `0`, `duration`, then each
cut's bounds, then each speed region's bounds. -/
def audioTimes (duration : ℚ) (cuts : List CutRegion) (speeds : List SpeedRegion) :
    List ℚ :=
  0 :: duration ::
    ((cutBounds cuts).flatMap (fun c => [c.1, c.2])
      ++ (speedBounds speeds).flatMap (fun s => [s.1, s.2.1]))

/-- The deduplicated, ascending breakpoint list (`Array.from(times).sort`). -/
def audioSortedTimes (duration : ℚ) (cuts : List CutRegion) (speeds : List SpeedRegion) :
    List ℚ :=
  ((audioTimes duration cuts speeds).dedup).insertionSort (· ≤ ·)

/-- Segment construction for one pair of consecutive breakpoints: skip empty
segments and segments starting inside a cut; otherwise attach the speed of
the first containing speed region (1 if none). -/
def mkAudioSegment (cutsB : List (ℚ × ℚ)) (speedsB : List (ℚ × ℚ × ℚ))
    (p : ℚ × ℚ) : Option AudioSegment :=
  if p.2 - p.1 ≤ 0 then none
  else if cutsB.any (fun c => decide (c.1 ≤ p.1 ∧ p.1 < c.2)) then none
  else some ⟨p.1, p.2 - p.1,
    match speedsB.find? (fun s => decide (s.1 ≤ p.1 ∧ p.1 < s.2.1)) with
    | some s => s.2.2
    | none => 1⟩

/-- The audio segments emitted by `prepareProcessedAudio`, in emission order. -/
def audioSegments (duration : ℚ) (cuts : List CutRegion) (speeds : List SpeedRegion) :
    List AudioSegment :=
  let sortedTimes := audioSortedTimes duration cuts speeds
  (sortedTimes.zip sortedTimes.tail).filterMap
    (mkAudioSegment (cutBounds cuts) (speedBounds speeds))

/-! ## `buildAtempoFilter` (audio time-stretch stage chain)

`buildAtempoFilter(factor)` returns `null` when `|factor − 1| < 0.01`;
otherwise it pushes `2.0` while the remaining factor exceeds `2.0`, pushes
`0.5` while it is below `0.5`, and finally pushes the remaining factor.  The
doubling loop is guarded here by `0 < r` for totality: on `r ≤ 0` the source
loop `while (remaining < 0.5) remaining /= 0.5` never terminates, and the
claim only concerns positive factors. -/

/-- The halving loop: `while (remaining > 2.0) { filters.push(2.0); remaining /= 2.0 }`,
returning the pushed stages and the remaining factor. -/
def halveChain (r : ℚ) : List ℚ × ℚ :=
  if h : 2 < r then
    let res := halveChain (r / 2)
    (2 :: res.1, res.2)
  else ([], r)
termination_by (⌈r⌉).toNat
decreasing_by
  have h1 : (2 : ℤ) < ⌈r⌉ := Int.lt_ceil.mpr (by exact_mod_cast h)
  have h2 : ⌈r / 2⌉ ≤ ⌈r⌉ - 1 := by
    have hle : r / 2 ≤ r - 1 := by linarith
    calc ⌈r / 2⌉ ≤ ⌈r - 1⌉ := Int.ceil_le_ceil hle
    _ = ⌈r⌉ - 1 := by rw [show (1 : ℚ) = ((1 : ℤ) : ℚ) by norm_num, Int.ceil_sub_int]
  omega

/-- The doubling loop: `while (remaining < 0.5) { filters.push(0.5); remaining /= 0.5 }`
(guarded by `0 < r`, see the section comment). -/
def doubleChain (r : ℚ) : List ℚ × ℚ :=
  if h : 0 < r ∧ r < 1 / 2 then
    let res := doubleChain (r / (1 / 2))
    (1 / 2 :: res.1, res.2)
  else ([], r)
termination_by (⌈1 / r⌉).toNat
decreasing_by
  have hr0 : (0 : ℚ) < r := h.1
  have hq : 2 < 1 / r := by
    rw [lt_div_iff₀ hr0]
    linarith [h.2]
  have heq : 1 / (r / (1 / 2)) = 1 / r / 2 := by
    field_simp
  rw [heq]
  have h1 : (2 : ℤ) < ⌈1 / r⌉ := Int.lt_ceil.mpr (by exact_mod_cast hq)
  have h2 : ⌈1 / r / 2⌉ ≤ ⌈1 / r⌉ - 1 := by
    have hle : 1 / r / 2 ≤ 1 / r - 1 := by linarith
    calc ⌈1 / r / 2⌉ ≤ ⌈1 / r - 1⌉ := Int.ceil_le_ceil hle
    _ = ⌈1 / r⌉ - 1 := by rw [show (1 : ℚ) = ((1 : ℤ) : ℚ) by norm_num, Int.ceil_sub_int]
  omega

/-- `buildAtempoFilter`: `null` for factors within 1 % of 1, otherwise the
chain of bounded-ratio stages (each in `[0.5, 2.0]`) whose product is the
requested factor. -/
def buildAtempoFilter (factor : ℚ) : Option (List ℚ) :=
  if |factor - 1| < 1 / 100 then none
  else
    let hc := halveChain factor
    let dc := doubleChain hc.2
    some (hc.1 ++ dc.1 ++ [dc.2])

/-! ## Video frame provider (`createVideoFrameProvider`)

Sequential decoder wrapper.  Frame timestamps are integer microseconds
(`Math.round(sample.cts * 1e6 / timescale)`).  The state holds the
`lastFrame`/`nextFrame` pair and the stream of decoded frames not yet pulled,
in decode order; `pullFrame` yields the next frame of that stream, and `null`
once it is drained (after `decoder.flush()` resolves, `closed = true` and
every waiter receives `null`). -/

/-- Frame-provider state: held `lastFrame` and `nextFrame` plus the remaining
decoded-frame stream. -/
structure ProviderState where
  lastFrame : Option ℤ
  nextFrame : Option ℤ
  queue : List ℤ
deriving DecidableEq

/-- `pullFrame`: the next decoded frame of the stream, `null` once drained. -/
def pullFrame (queue : List ℤ) : Option ℤ × List ℤ :=
  (queue.head?, queue.tail)

/-- `lastFrame ?? nextFrame` — the frame a request would return in this
state. -/
def curOf (last next : Option ℤ) : Option ℤ :=
  match last with
  | some l => some l
  | none => next

/-- The held frame of a provider state (`lastFrame ?? nextFrame`). -/
def heldFrame (s : ProviderState) : Option ℤ :=
  curOf s.lastFrame s.nextFrame

/-- The `while (nextFrame && nextFrame.timestamp < targetUs)` loop of
`getFrameForTime`: release the superseded `lastFrame`, promote
`nextFrame → lastFrame` and pull the next decoded frame; returns the final
`(lastFrame, nextFrame, queue)`. -/
def advanceFrames (last next : Option ℤ) (queue : List ℤ) (targetUs : ℤ) :
    Option ℤ × Option ℤ × List ℤ :=
  match next with
  | none => (last, none, queue)
  | some ts =>
    if ts < targetUs then
      match queue with
      | [] => (some ts, none, [])
      | q :: qs => advanceFrames (some ts) (some q) qs targetUs
    else (last, some ts, queue)

/-- `getFrameForTime(timeSec)`: `targetUs = Math.round(timeSec * 1e6)`; pull
an initial frame when none is held, run the promote loop, and return
`lastFrame ?? nextFrame ?? null` together with the updated state. -/
def getFrameForTime (s : ProviderState) (timeSec : ℚ) : Option ℤ × ProviderState :=
  let targetUs : ℤ := round (timeSec * 1000000)
  let pulled :=
    match s.nextFrame with
    | some n => (some n, s.queue)
    | none => pullFrame s.queue
  let res := advanceFrames s.lastFrame pulled.1 pulled.2 targetUs
  (curOf res.1 res.2.1, ⟨res.1, res.2.1, res.2.2⟩)

/-- Run a sequence of requests against the provider, collecting the returned
frames in order. -/
def runRequests (s : ProviderState) : List ℚ → List (Option ℤ)
  | [] => []
  | t :: ts =>
    let r := getFrameForTime s t
    r.1 :: runRequests r.2 ts

/-- Ordering invariant on a provider state: `lastFrame`, `nextFrame` and the
queued frames are strictly increasing, in that order. -/
def ProviderInv (s : ProviderState) : Prop :=
  (s.lastFrame.toList ++ s.nextFrame.toList ++ s.queue).Pairwise (· < ·)

/-! ## Theorems -/

lemma foldl_sub_eq (init : ℚ) (l : List ℚ) :
    l.foldl (fun acc d => acc - d) init = init - l.sum := by
  induction l generalizing init with
  | nil => simp
  | cons d l ih => simp [ih, List.sum_cons]; ring

lemma foldl_speed_eq (init : ℚ) (l : List (ℚ × ℚ)) (h : ∀ r ∈ l, r.2 ≠ 0) :
    l.foldl (fun acc r => acc - r.1 + r.1 / r.2) init
      = init + (l.map (fun r => r.1 * (1 / r.2 - 1))).sum := by
  induction l generalizing init with
  | nil => simp
  | cons r l ih =>
    have hr : r.2 ≠ 0 := h r (List.mem_cons_self r l)
    have hl : ∀ x ∈ l, x.2 ≠ 0 := fun x hx => h x (List.mem_cons_of_mem r hx)
    rw [List.foldl_cons, ih _ hl, List.map_cons, List.sum_cons]
    field_simp
    ring

/-- **C1.** For any source duration `D ≥ 0`, cut regions, and speed regions
with positive speed factors, the export duration computed before rendering
equals `max 0 (D − Σ cut durations + Σ d·(1/speed − 1))`, and the export loop
renders exactly `⌊exportDuration · fps⌋` frames. -/
theorem exportDuration_and_frames_spec (D : ℚ) (cuts : List ℚ)
    (speeds : List (ℚ × ℚ)) (fps : ℚ) (hD : 0 ≤ D)
    (hs : ∀ r ∈ speeds, 0 < r.2) (hfps : 0 ≤ fps) :
    exportDuration D cuts speeds
      = max 0 (D - cuts.sum + (speeds.map (fun r => r.1 * (1 / r.2 - 1))).sum)
    ∧ ((exportLoopFrames D cuts speeds fps).length : ℤ)
      = Int.floor (exportDuration D cuts speeds * fps) := by
  constructor
  · unfold exportDuration
    rw [foldl_sub_eq, foldl_speed_eq _ _ (fun r hr => ne_of_gt (hs r hr))]
  · unfold exportLoopFrames
    rw [List.length_range]
    have h0 : (0 : ℚ) ≤ exportDuration D cuts speeds * fps :=
      mul_nonneg (le_max_left _ _) hfps
    have : (0 : ℤ) ≤ totalFrames D cuts speeds fps := by
      unfold totalFrames
      exact Int.floor_nonneg.mpr h0
    rw [Int.toNat_of_nonneg this]
    rfl

/-- Witness for `exportDuration_and_frames_spec`: a 10 s source with one 1 s
cut and one 2 s region at double speed, at 30 fps. -/
theorem exportDuration_and_frames_spec_witness :
    exportDuration 10 [1] [(2, 2)]
      = max 0 (10 - ([1] : List ℚ).sum
          + (([(2, 2)] : List (ℚ × ℚ)).map (fun r => r.1 * (1 / r.2 - 1))).sum)
    ∧ ((exportLoopFrames 10 [1] [(2, 2)] 30).length : ℤ)
      = Int.floor (exportDuration 10 [1] [(2, 2)] * 30) :=
  exportDuration_and_frames_spec 10 [1] [(2, 2)] 30 (by norm_num)
    (by intro r hr; simp at hr; rw [hr]; norm_num) (by norm_num)

/-- **C6, counterexample.** In the legacy seek-driven render loop, the
per-frame progress at the last frame (frame 9 of 10) is 100, not
`min 99 ((frame+1)/totalFrames·100) = 99`: a per-frame progress message does
report a value above 99. -/
theorem renderProgress_counterexample :
    legacyRenderProgress 9 10 = 100
    ∧ legacyRenderProgress 9 10 ≠ min 99 (((9 : ℚ) + 1) / 10 * 100)
    ∧ ¬ legacyRenderProgress 9 10 ≤ 99 := by
  refine ⟨?_, ?_, ?_⟩ <;> norm_num [legacyRenderProgress]

/-- **C6, amended.** In the decoder-driven export loop the per-frame progress
equals `min 99 ((frame+1)/totalFrames·100)` and hence never exceeds 99, while
the legacy seek-driven loop reports the unclamped value, which reaches exactly
100 at its final frame. -/
theorem renderProgress_spec (nFrames frame : ℕ) (h : 0 < nFrames) :
    (frame < nFrames →
      renderProgress frame nFrames = min 99 (((frame : ℚ) + 1) / nFrames * 100)
      ∧ renderProgress frame nFrames ≤ 99)
    ∧ legacyRenderProgress (nFrames - 1) nFrames = 100 := by
  constructor
  · intro _
    exact ⟨rfl, min_le_left _ _⟩
  · unfold legacyRenderProgress
    have hn : (nFrames : ℚ) ≠ 0 := Nat.cast_ne_zero.mpr h.ne'
    have hcast : ((nFrames - 1 : ℕ) : ℚ) + 1 = (nFrames : ℚ) := by
      have := Nat.succ_pred_eq_of_pos h
      push_cast [Nat.cast_sub (Nat.one_le_iff_ne_zero.mpr h.ne')]
      ring
    rw [hcast, div_self hn]
    norm_num

/-- Witness for `renderProgress_spec` at `nFrames = 10`, `frame = 4`. -/
theorem renderProgress_spec_witness :
    ((4 < 10 →
      renderProgress 4 10 = min 99 (((4 : ℚ) + 1) / 10 * 100)
      ∧ renderProgress 4 10 ≤ 99)
    ∧ legacyRenderProgress (10 - 1) 10 = 100) :=
  renderProgress_spec 10 4 (by norm_num)

/-- **C10, counterexample.** With `webcamDuration = 1/60` s and `fps = 30`,
`webcamDuration − 1/fps` is negative; the computed webcam query time is 0,
which exceeds `webcamDuration − 1/fps`, contradicting the claim that the
query time never exceeds `webcamDuration − 1/fps`. -/
theorem webcamTimestamp_counterexample :
    webcamTimestamp 1 (webcamTimeScale true (1 / 60) 1) (1 / 60) 30 = 0
    ∧ ¬ webcamTimestamp 1 (webcamTimeScale true (1 / 60) 1) (1 / 60) 30
        ≤ (1 / 60 : ℚ) - 1 / 30 := by
  constructor <;> norm_num [webcamTimestamp, webcamTimeScale]

/-- **C10, amended.** The webcam query timestamp equals the scaled source
timestamp clamped to `[0, max 0 (webcamDuration − 1/fps)]`; in particular it
never exceeds `max 0 (webcamDuration − 1/fps)` (and never exceeds
`webcamDuration − 1/fps` itself whenever `webcamDuration ≥ 1/fps`), and the
scale is `webcamDuration / mainDuration` when both durations are positive and
the webcam is present, 1 otherwise. -/
theorem webcamTimestamp_spec (ts webcamDuration mainDuration fps : ℚ)
    (hasWebcam : Bool) (hw : 0 < webcamDuration) (hm : 0 < mainDuration) :
    (webcamTimeScale hasWebcam webcamDuration mainDuration
        = if hasWebcam then webcamDuration / mainDuration else 1)
    ∧ (∀ scale : ℚ,
        0 ≤ webcamTimestamp ts scale webcamDuration fps
        ∧ webcamTimestamp ts scale webcamDuration fps
            ≤ max 0 (webcamDuration - 1 / fps)
        ∧ (1 / fps ≤ webcamDuration →
            webcamTimestamp ts scale webcamDuration fps
              ≤ webcamDuration - 1 / fps)) := by
  constructor
  · unfold webcamTimeScale
    cases hasWebcam with
    | false => simp
    | true => simp [hw, hm]
  · intro scale
    refine ⟨le_max_left _ _, ?_, ?_⟩
    · unfold webcamTimestamp
      exact max_le (le_max_left _ _) (le_trans (min_le_right _ _) le_rfl)
    · intro hge
      have hnn : (0 : ℚ) ≤ webcamDuration - 1 / fps := by linarith
      unfold webcamTimestamp
      rw [max_eq_right hnn]
      exact max_le hnn (min_le_right _ _)

/-- Witness for `webcamTimestamp_spec` with a 2 s webcam over a 4 s main video. -/
theorem webcamTimestamp_spec_witness :
    ((webcamTimeScale true 2 4 = if true then (2 : ℚ) / 4 else 1)
    ∧ (∀ scale : ℚ,
        0 ≤ webcamTimestamp 5 scale 2 30
        ∧ webcamTimestamp 5 scale 2 30 ≤ max 0 (2 - 1 / 30)
        ∧ (1 / 30 ≤ (2 : ℚ) →
            webcamTimestamp 5 scale 2 30 ≤ 2 - 1 / 30))) :=
  webcamTimestamp_spec 5 2 4 30 true (by norm_num) (by norm_num)

/-- **C5.** For any (possibly absent) mouse position, any origin with
components in `[0,1]`, any zoom level `z > 1` and positive recording-geometry
and frame-content dimensions, the translation returned by
`calculateBoundedPan` satisfies
`-(1-oₓ)·W·(z-1)/z ≤ tx ≤ oₓ·W·(z-1)/z` and
`-(1-o_y)·H·(z-1)/z ≤ ty ≤ o_y·H·(z-1)/z`. -/
theorem calculateBoundedPan_bounds (mousePos : Option (ℚ × ℚ))
    (ox oy z gw gh W H : ℚ)
    (hox0 : 0 ≤ ox) (hox1 : ox ≤ 1) (hoy0 : 0 ≤ oy) (hoy1 : oy ≤ 1)
    (hz : 1 < z) (hgw : 0 < gw) (hgh : 0 < gh) (hW : 0 < W) (hH : 0 < H) :
    -((1 - ox) * W * (z - 1)) / z
        ≤ (calculateBoundedPan mousePos (ox, oy) z (gw, gh) (W, H)).1
    ∧ (calculateBoundedPan mousePos (ox, oy) z (gw, gh) (W, H)).1
        ≤ ox * W * (z - 1) / z
    ∧ -((1 - oy) * H * (z - 1)) / z
        ≤ (calculateBoundedPan mousePos (ox, oy) z (gw, gh) (W, H)).2
    ∧ (calculateBoundedPan mousePos (ox, oy) z (gw, gh) (W, H)).2
        ≤ oy * H * (z - 1) / z := by
  have hz0 : (0 : ℚ) < z := lt_trans one_pos hz
  have hz1 : (0 : ℚ) ≤ z - 1 := by linarith
  have hminx : -((1 - ox) * W * (z - 1)) / z ≤ 0 := by
    apply div_nonpos_of_nonpos_of_nonneg _ hz0.le
    simp only [neg_nonpos]
    exact mul_nonneg (mul_nonneg (by linarith) hW.le) hz1
  have hmaxx : (0 : ℚ) ≤ ox * W * (z - 1) / z :=
    div_nonneg (mul_nonneg (mul_nonneg hox0 hW.le) hz1) hz0.le
  have hminy : -((1 - oy) * H * (z - 1)) / z ≤ 0 := by
    apply div_nonpos_of_nonpos_of_nonneg _ hz0.le
    simp only [neg_nonpos]
    exact mul_nonneg (mul_nonneg (by linarith) hH.le) hz1
  have hmaxy : (0 : ℚ) ≤ oy * H * (z - 1) / z :=
    div_nonneg (mul_nonneg (mul_nonneg hoy0 hH.le) hz1) hz0.le
  match mousePos with
  | none =>
    simp only [calculateBoundedPan]
    exact ⟨hminx, hmaxx, hminy, hmaxy⟩
  | some mouse =>
    simp only [calculateBoundedPan]
    refine ⟨le_max_left _ _, ?_, le_max_left _ _, ?_⟩
    · exact max_le (le_trans hminx hmaxx) (min_le_left _ _)
    · exact max_le (le_trans hminy hmaxy) (min_le_left _ _)

/-- Witness for `calculateBoundedPan_bounds`: mouse at `(0,0)`, centered
origin, zoom 2, geometry `200 × 200`, content `100 × 100`. -/
theorem calculateBoundedPan_bounds_witness :
    -((1 - 1/2) * 100 * (2 - 1)) / 2
        ≤ (calculateBoundedPan (some (0, 0)) (1/2, 1/2) 2 (200, 200) (100, 100)).1
    ∧ (calculateBoundedPan (some (0, 0)) (1/2, 1/2) 2 (200, 200) (100, 100)).1
        ≤ 1/2 * 100 * (2 - 1) / 2
    ∧ -((1 - 1/2) * 100 * (2 - 1)) / 2
        ≤ (calculateBoundedPan (some (0, 0)) (1/2, 1/2) 2 (200, 200) (100, 100)).2
    ∧ (calculateBoundedPan (some (0, 0)) (1/2, 1/2) 2 (200, 200) (100, 100)).2
        ≤ 1/2 * 100 * (2 - 1) / 2 :=
  calculateBoundedPan_bounds (some (0, 0)) (1/2) (1/2) 2 200 200 100 100
    (by norm_num) (by norm_num) (by norm_num) (by norm_num)
    (by norm_num) (by norm_num) (by norm_num) (by norm_num) (by norm_num)

/-- **C4, counterexample.** `calculateZoomTransform` is not a pure function
of its arguments: during the hold phase (`currentTime = 5` of a `[0,10)`
region with 1 s transitions) a call made directly after module load returns
`translateX = 15/4`, while the identical call made after one extra call at
`currentTime = 4` returns `translateX = 111/16`, because the result reads the
hidden `previousPan*` globals. -/
theorem calculateZoomTransform_counterexample :
    (calculateZoomTransform cxEasingMap id 5 cxRegions cxMetadata (200, 200)
        (100, 100) initialPanState).1
    ≠ (calculateZoomTransform cxEasingMap id 5 cxRegions cxMetadata (200, 200)
        (100, 100)
        (calculateZoomTransform cxEasingMap id 4 cxRegions cxMetadata (200, 200)
          (100, 100) initialPanState).2).1 := by
  have e1 : (calculateZoomTransform cxEasingMap id 5 cxRegions cxMetadata (200, 200)
      (100, 100) initialPanState).1.translateX = 15 / 4 := by
    norm_num [calculateZoomTransform, cxEasingMap, cxRegions, cxMetadata, initialPanState,
      zoomRegionActive, getTransformOrigin, getSmoothedMousePosition, findLastMetadataIndex,
      findLastAux, mdGet, emaStep, calculateBoundedPan, lerp, PAN_SMOOTHING_FACTOR,
      SMOOTHING_FACTOR, SMOOTHING_WINDOW, DEAD_ZONE, min_def, max_def]
  have e2 : (calculateZoomTransform cxEasingMap id 5 cxRegions cxMetadata (200, 200)
      (100, 100)
      (calculateZoomTransform cxEasingMap id 4 cxRegions cxMetadata (200, 200)
        (100, 100) initialPanState).2).1.translateX = 111 / 16 := by
    norm_num [calculateZoomTransform, cxEasingMap, cxRegions, cxMetadata, initialPanState,
      zoomRegionActive, getTransformOrigin, getSmoothedMousePosition, findLastMetadataIndex,
      findLastAux, mdGet, emaStep, calculateBoundedPan, lerp, PAN_SMOOTHING_FACTOR,
      SMOOTHING_FACTOR, SMOOTHING_WINDOW, DEAD_ZONE, min_def, max_def]
  intro heq
  rw [heq] at e1
  rw [e1] at e2
  norm_num at e2

/-- **C4, amended.** `calculateZoomTransform` is deterministic given the pan
state: whenever no active zoom region puts `currentTime` in its hold phase
(i.e. the time lies in the zoom-in or zoom-out transition, or no region is
active), the returned transform is independent of the hidden
`previousPan*`/`lastPanUpdateTime` state; during the hold phase it
additionally depends on that state. -/
theorem calculateZoomTransform_state_independent {E : Type}
    (easingMap : E → Option (ℚ → ℚ)) (balanced : ℚ → ℚ) (currentTime : ℚ)
    (zoomRegions : List (ZoomRegion E)) (metadata : List MetaDataItem)
    (recordingGeometry frameContentDimensions : ℚ × ℚ) (ps₁ ps₂ : PanState)
    (h : ∀ r ∈ zoomRegions, r.startTime ≤ currentTime →
      currentTime < r.startTime + r.duration →
      currentTime < r.startTime + r.transitionDuration
      ∨ r.startTime + r.duration - r.transitionDuration ≤ currentTime) :
    (calculateZoomTransform easingMap balanced currentTime zoomRegions metadata
      recordingGeometry frameContentDimensions ps₁).1
    = (calculateZoomTransform easingMap balanced currentTime zoomRegions metadata
      recordingGeometry frameContentDimensions ps₂).1 := by
  unfold calculateZoomTransform
  cases hfind : zoomRegions.find? (zoomRegionActive currentTime) with
  | none => rfl
  | some r =>
    have hmem : r ∈ zoomRegions := List.mem_of_find?_eq_some hfind
    have hact : zoomRegionActive currentTime r = true := List.find?_some hfind
    have hact' : r.startTime ≤ currentTime
        ∧ currentTime < r.startTime + r.duration := by
      simpa [zoomRegionActive] using hact
    have hphase := h r hmem hact'.1 hact'.2
    simp only
    by_cases hA : r.startTime ≤ currentTime
        ∧ currentTime < r.startTime + r.transitionDuration
    · rw [if_pos hA, if_pos hA]
    · rw [if_neg hA, if_neg hA]
      have hB : ¬(r.startTime + r.transitionDuration ≤ currentTime
          ∧ currentTime < r.startTime + r.duration - r.transitionDuration) := by
        rcases hphase with hp | hp
        · intro hB; linarith [hB.1]
        · intro hB; linarith [hB.2]
      rw [if_neg hB, if_neg hB]
      by_cases hC : r.startTime + r.duration - r.transitionDuration ≤ currentTime
          ∧ currentTime ≤ r.startTime + r.duration
      · rw [if_pos hC, if_pos hC]
      · rw [if_neg hC, if_neg hC]

/-- Witness for `calculateZoomTransform_state_independent`: at
`currentTime = 1/2` (inside the zoom-in transition of the region of
`cxRegions`) the transform does not depend on the pan state. -/
theorem calculateZoomTransform_state_independent_witness :
    (calculateZoomTransform cxEasingMap id (1/2) cxRegions cxMetadata (200, 200)
      (100, 100) initialPanState).1
    = (calculateZoomTransform cxEasingMap id (1/2) cxRegions cxMetadata (200, 200)
      (100, 100) { previousPanX := 1, previousPanY := 2, lastPanUpdateTime := 3 }).1 :=
  calculateZoomTransform_state_independent cxEasingMap id (1/2) cxRegions
    cxMetadata (200, 200) (100, 100) initialPanState
    { previousPanX := 1, previousPanY := 2, lastPanUpdateTime := 3 }
    (by intro r hr _ _; left; simp [cxRegions] at hr; rw [hr]; norm_num)

/-- **C9.** With `scaleOnZoom = false`, the webcam overlay geometry drawn by
`drawScene` is identical for every `currentTime` and every set of zoom
regions: it depends only on the configured size, shape, anchor and output
dimensions, so the webcam never changes size while zoom regions are active. -/
theorem webcamGeometry_fixed_when_not_scaleOnZoom {E : Type}
    (easingMap : E → Option (ℚ → ℚ)) (balanced : ℚ → ℚ)
    (zoomRegions₁ zoomRegions₂ : List (ZoomRegion E)) (styles : WebcamStyles)
    (pos : WebcamPos) (t₁ t₂ outputWidth outputHeight : ℚ)
    (h : styles.scaleOnZoom = false) :
    webcamGeometry easingMap balanced zoomRegions₁ styles pos t₁
      outputWidth outputHeight
    = webcamGeometry easingMap balanced zoomRegions₂ styles pos t₂
      outputWidth outputHeight := by
  unfold webcamGeometry
  rw [h]
  simp only [Bool.false_eq_true, if_false]

/-- Witness for `webcamGeometry_fixed_when_not_scaleOnZoom`: a square,
non-flipped webcam of size 40 % at the bottom right of a 1920×1080 output,
compared at times 0 and 5 with and without an active zoom region. -/
theorem webcamGeometry_fixed_when_not_scaleOnZoom_witness :
    webcamGeometry cxEasingMap id [] cxWebcamStyles WebcamPos.bottomRight 0 1920 1080
    = webcamGeometry cxEasingMap id cxRegions cxWebcamStyles WebcamPos.bottomRight 5
      1920 1080 :=
  webcamGeometry_fixed_when_not_scaleOnZoom cxEasingMap id [] cxRegions
    cxWebcamStyles WebcamPos.bottomRight 0 5 1920 1080 rfl

lemma audioSortedTimes_sorted (duration : ℚ) (cuts : List CutRegion)
    (speeds : List SpeedRegion) :
    (audioSortedTimes duration cuts speeds).Sorted (· < ·) := by
  have h1 : (audioSortedTimes duration cuts speeds).Sorted (· ≤ ·) :=
    List.sorted_insertionSort _ _
  have h2 : (audioSortedTimes duration cuts speeds).Nodup :=
    ((List.perm_insertionSort _ _).nodup_iff).mpr ((audioTimes duration cuts speeds).nodup_dedup)
  exact h1.lt_of_le h2

lemma mem_audioSortedTimes (duration : ℚ) (cuts : List CutRegion)
    (speeds : List SpeedRegion) (x : ℚ) :
    x ∈ audioSortedTimes duration cuts speeds ↔ x ∈ audioTimes duration cuts speeds := by
  unfold audioSortedTimes
  rw [(List.perm_insertionSort _ _).mem_iff, List.mem_dedup]

/-- In a strictly sorted list, no element lies strictly between two
consecutive entries. -/
lemma sorted_not_mem_between {l : List ℚ} (hl : l.Sorted (· < ·)) :
    ∀ p ∈ l.zip l.tail, ∀ c ∈ l, ¬(p.1 < c ∧ c < p.2) := by
  induction l with
  | nil => simp
  | cons x rest ih =>
    cases rest with
    | nil => simp
    | cons y rest2 =>
      intro p hp c hc
      rw [List.tail_cons, List.zip_cons_cons] at hp
      rcases List.mem_cons.mp hp with rfl | hp2
      · rintro ⟨hxc, hcy⟩
        rcases List.mem_cons.mp hc with rfl | hc2
        · exact lt_irrefl _ hxc
        · rcases List.mem_cons.mp hc2 with rfl | hc3
          · exact lt_irrefl _ hcy
          · have hyc : y < c := ((List.sorted_cons.mp (List.sorted_cons.mp hl).2).1) c hc3
            exact lt_asymm hyc hcy
      · rintro ⟨hpc, hcp⟩
        rcases List.mem_cons.mp hc with rfl | hc2
        · have hp1 : p.1 ∈ y :: rest2 := (List.of_mem_zip hp2).1
          have : c < p.1 := (List.sorted_cons.mp hl).1 p.1 hp1
          exact lt_asymm this hpc
        · exact ih (List.sorted_cons.mp hl).2 p hp2 c hc2 ⟨hpc, hcp⟩

/-- In a strictly sorted list, the consecutive-pair list is pairwise
increasing in the first component. -/
lemma zip_tail_pairwise {l : List ℚ} (hl : l.Sorted (· < ·)) :
    (l.zip l.tail).Pairwise (fun p q : ℚ × ℚ => p.1 < q.1) := by
  induction l with
  | nil => simp
  | cons x rest ih =>
    cases rest with
    | nil => simp
    | cons y rest2 =>
      rw [List.tail_cons, List.zip_cons_cons]
      refine List.Pairwise.cons ?_ (ih (List.sorted_cons.mp hl).2)
      intro q hq
      exact (List.sorted_cons.mp hl).1 q.1 (List.of_mem_zip hq).1

lemma mkAudioSegment_eq_some {cutsB : List (ℚ × ℚ)} {speedsB : List (ℚ × ℚ × ℚ)}
    {p : ℚ × ℚ} {seg : AudioSegment}
    (h : mkAudioSegment cutsB speedsB p = some seg) :
    seg.start = p.1 ∧ seg.duration = p.2 - p.1 ∧ 0 < p.2 - p.1
    ∧ ∀ cb ∈ cutsB, ¬(cb.1 ≤ p.1 ∧ p.1 < cb.2) := by
  unfold mkAudioSegment at h
  split_ifs at h with h1 h2
  injection h with h3
  subst h3
  refine ⟨rfl, rfl, by linarith [not_le.mp h1], ?_⟩
  intro cb hcb hcontr
  exact h2 (List.any_eq_true.mpr ⟨cb, hcb, by simpa using hcontr⟩)

/-- **C7.** For cut and speed regions with boundaries inside `[0, duration]`,
every audio segment emitted by the resegmentation pre-pass has positive
length and an interval `[start, start + duration)` disjoint from every cut
region, and segments are emitted in strictly increasing order of start
time. -/
theorem audioSegments_spec (duration : ℚ) (cuts : List CutRegion)
    (speeds : List SpeedRegion)
    (hc : ∀ c ∈ cuts, 0 ≤ c.startTime ∧ c.startTime + c.duration ≤ duration)
    (hs : ∀ s ∈ speeds, 0 ≤ s.startTime ∧ s.startTime + s.duration ≤ duration) :
    (∀ seg ∈ audioSegments duration cuts speeds,
      0 < seg.duration
      ∧ ∀ c ∈ cuts, ∀ x : ℚ, seg.start ≤ x → x < seg.start + seg.duration →
          ¬(c.startTime ≤ x ∧ x < c.startTime + c.duration))
    ∧ (audioSegments duration cuts speeds).Pairwise
        (fun a b => a.start < b.start) := by
  have hsorted := audioSortedTimes_sorted duration cuts speeds
  constructor
  · intro seg hseg
    obtain ⟨p, hp, hf⟩ := List.mem_filterMap.mp hseg
    obtain ⟨hstart, hdur, hpos, hcut⟩ := mkAudioSegment_eq_some hf
    refine ⟨by rw [hdur]; exact hpos, ?_⟩
    intro c hcmem x hx1 hx2
    rintro ⟨hcx1, hcx2⟩
    have hcb : (c.startTime, c.startTime + c.duration) ∈ cutBounds cuts :=
      List.mem_map.mpr ⟨c, hcmem, rfl⟩
    have hnc := hcut _ hcb
    simp only at hnc
    rw [hstart] at hx1
    rw [hstart, hdur] at hx2
    have hx2' : x < p.2 := by linarith
    by_cases hcs : c.startTime ≤ p.1
    · have : ¬ p.1 < c.startTime + c.duration := fun hlt => hnc ⟨hcs, hlt⟩
      have : c.startTime + c.duration ≤ p.1 := not_lt.mp this
      linarith
    · push_neg at hcs
      have hmemcs : c.startTime ∈ audioSortedTimes duration cuts speeds := by
        rw [mem_audioSortedTimes]
        unfold audioTimes
        refine List.mem_cons_of_mem _ (List.mem_cons_of_mem _ ?_)
        refine List.mem_append_left _ ?_
        exact List.mem_flatMap.mpr ⟨_, hcb, by simp⟩
      have hbetween := sorted_not_mem_between hsorted p hp c.startTime hmemcs
      exact hbetween ⟨hcs, by linarith⟩
  · unfold audioSegments
    refine List.Pairwise.filterMap _ ?_ (zip_tail_pairwise hsorted)
    intro p q hpq a ha b hb
    rw [(mkAudioSegment_eq_some ha).1, (mkAudioSegment_eq_some hb).1]
    exact hpq

/-- Witness for `audioSegments_spec`: a 10 s track with a cut `[2, 3)` and a
speed region `[5, 7)` at double speed. -/
theorem audioSegments_spec_witness :
    ((∀ seg ∈ audioSegments 10 [⟨2, 1⟩] [⟨5, 2, 2⟩],
      0 < seg.duration
      ∧ ∀ c ∈ ([⟨2, 1⟩] : List CutRegion), ∀ x : ℚ,
          seg.start ≤ x → x < seg.start + seg.duration →
          ¬(c.startTime ≤ x ∧ x < c.startTime + c.duration))
    ∧ (audioSegments 10 [⟨2, 1⟩] [⟨5, 2, 2⟩]).Pairwise
        (fun a b => a.start < b.start)) :=
  audioSegments_spec 10 [⟨2, 1⟩] [⟨5, 2, 2⟩]
    (by intro c hcm; simp at hcm; rw [hcm]; norm_num)
    (by intro s hsm; simp at hsm; rw [hsm]; norm_num)

lemma halveChain_spec (r : ℚ) :
    (∀ x ∈ (halveChain r).1, x = 2)
    ∧ (halveChain r).1.prod * (halveChain r).2 = r
    ∧ (halveChain r).2 ≤ 2
    ∧ (0 < r → 0 < (halveChain r).2)
    ∧ (2 < r → 1 < (halveChain r).2) := by
  induction r using halveChain.induct with
  | case1 r h ih =>
    rw [halveChain, dif_pos h]
    simp only [List.mem_cons, List.prod_cons]
    obtain ⟨ih1, ih2, ih3, ih4, ih5⟩ := ih
    refine ⟨?_, ?_, ih3, ?_, ?_⟩
    · rintro x (rfl | hx)
      · rfl
      · exact ih1 x hx
    · rw [mul_assoc, ih2]; ring
    · intro _
      have : 0 < r / 2 := by linarith
      exact ih4 this
    · intro _
      have h2 : 1 < r / 2 := by linarith
      by_cases hrec : 2 < r / 2
      · exact ih5 hrec
      · have heq : halveChain (r / 2) = ([], r / 2) := by
          rw [halveChain, dif_neg hrec]
        rw [heq]
        exact h2
  | case2 r h =>
    rw [halveChain, dif_neg h]
    push_neg at h
    exact ⟨by simp, by simp, h, fun hr => hr, fun h2 => absurd h2 (by push_neg; exact h)⟩

lemma doubleChain_spec (r : ℚ) :
    (∀ x ∈ (doubleChain r).1, x = 1 / 2)
    ∧ (doubleChain r).1.prod * (doubleChain r).2 = r
    ∧ (0 < r → 1 / 2 ≤ (doubleChain r).2)
    ∧ (0 < r → r < 1 / 2 → (doubleChain r).2 < 1)
    ∧ (1 / 2 ≤ r → doubleChain r = ([], r)) := by
  induction r using doubleChain.induct with
  | case1 r h ih =>
    rw [doubleChain, dif_pos h]
    simp only [List.mem_cons, List.prod_cons]
    obtain ⟨ih1, ih2, ih3, ih4, ih5⟩ := ih
    have hr2 : r / (1 / 2) = 2 * r := by ring
    have h2r : 0 < r / (1 / 2) := by rw [hr2]; linarith [h.1]
    refine ⟨?_, ?_, ?_, ?_, ?_⟩
    · rintro x (rfl | hx)
      · rfl
      · exact ih1 x hx
    · rw [mul_assoc, ih2]; ring
    · intro _
      exact ih3 h2r
    · intro _ _
      by_cases hrec : r / (1 / 2) < 1 / 2
      · exact ih4 h2r hrec
      · push_neg at hrec
        rw [(by simpa using congrArg Prod.snd (ih5 hrec) :
          (doubleChain (r / (1 / 2))).2 = r / (1 / 2)), hr2]
        linarith [h.2]
    · intro hge
      exact absurd h.2 (by push_neg; exact hge)
  | case2 r h =>
    rw [doubleChain, dif_neg h]
    refine ⟨by simp, by simp, ?_, ?_, fun _ => rfl⟩
    · intro hr0
      rcases not_and_or.mp h with hc | hc
      · exact absurd hr0 hc
      · push_neg at hc
        exact hc
    · intro hr0 hrlt
      exact absurd ⟨hr0, hrlt⟩ h

/-- **C8.** For every factor `f > 0` with `|f − 1| ≥ 0.01`,
`buildAtempoFilter f` produces a non-empty chain of stage ratios, each in
`[0.5, 2.0]`, whose product is exactly `f`. -/
theorem buildAtempoFilter_spec (f : ℚ) (hf : 0 < f) (hne : 1 / 100 ≤ |f - 1|) :
    ∃ l, buildAtempoFilter f = some l ∧ l ≠ []
      ∧ (∀ x ∈ l, 1 / 2 ≤ x ∧ x ≤ 2) ∧ l.prod = f := by
  unfold buildAtempoFilter
  rw [if_neg (by push_neg; exact hne)]
  obtain ⟨hh1, hh2, hh3, hh4, hh5⟩ := halveChain_spec f
  have hh2pos : 0 < (halveChain f).2 := hh4 hf
  obtain ⟨hd1, hd2, hd3, hd4, hd5⟩ := doubleChain_spec (halveChain f).2
  refine ⟨_, rfl, by simp, ?_, ?_⟩
  · intro x hx
    rcases List.mem_append.mp hx with hx' | hx'
    · rcases List.mem_append.mp hx' with hx'' | hx''
      · rw [hh1 x hx'']
        norm_num
      · rw [hd1 x hx'']
        norm_num
    · rw [List.mem_singleton.mp hx']
      refine ⟨hd3 hh2pos, ?_⟩
      by_cases hlt : (halveChain f).2 < 1 / 2
      · linarith [hd4 hh2pos hlt]
      · push_neg at hlt
        rw [(by simpa using congrArg Prod.snd (hd5 hlt) :
          (doubleChain (halveChain f).2).2 = (halveChain f).2)]
        exact hh3
  · rw [List.prod_append, List.prod_append, List.prod_singleton, mul_assoc, hd2, hh2]

/-- Witness for `buildAtempoFilter_spec` at `f = 5`. -/
theorem buildAtempoFilter_spec_witness :
    ∃ l, buildAtempoFilter 5 = some l ∧ l ≠ []
      ∧ (∀ x ∈ l, 1 / 2 ≤ x ∧ x ≤ 2) ∧ l.prod = 5 :=
  buildAtempoFilter_spec 5 (by norm_num) (by rw [abs_of_nonneg] <;> norm_num)

lemma advanceFrames_spec (queue : List ℤ) (last next : Option ℤ) (target : ℤ)
    (hinv : (last.toList ++ next.toList ++ queue).Pairwise (· < ·)) :
    ((advanceFrames last next queue target).1.toList
        ++ (advanceFrames last next queue target).2.1.toList
        ++ (advanceFrames last next queue target).2.2).Pairwise (· < ·)
    ∧ ∀ z, curOf last next = some z →
        ∃ y, curOf (advanceFrames last next queue target).1
          (advanceFrames last next queue target).2.1 = some y ∧ z ≤ y := by
  induction queue generalizing last next with
  | nil =>
    cases next with
    | none =>
      simp only [advanceFrames]
      exact ⟨hinv, fun z hz => ⟨z, hz, le_refl z⟩⟩
    | some ts =>
      by_cases hlt : ts < target
      · simp only [advanceFrames, if_pos hlt]
        refine ⟨by simp, ?_⟩
        intro z hz
        refine ⟨ts, rfl, ?_⟩
        cases last with
        | none =>
          simp only [curOf] at hz
          injection hz with hz'
          exact hz'.ge
        | some l =>
          simp only [curOf] at hz
          injection hz with hz'
          rw [← hz']
          simp only [Option.toList_some, List.singleton_append, List.append_nil] at hinv
          exact ((List.pairwise_cons.mp hinv).1 ts (by simp)).le
      · simp only [advanceFrames, if_neg hlt]
        exact ⟨hinv, fun z hz => ⟨z, hz, le_refl z⟩⟩
  | cons q qs ih =>
    cases next with
    | none =>
      simp only [advanceFrames]
      exact ⟨hinv, fun z hz => ⟨z, hz, le_refl z⟩⟩
    | some ts =>
      by_cases hlt : ts < target
      · simp only [advanceFrames, if_pos hlt]
        have hsub : ([ts] ++ [q] ++ qs).Sublist
            (last.toList ++ [ts] ++ (q :: qs)) := by
          simp only [List.append_assoc, List.singleton_append, List.cons_append]
          exact (List.sublist_append_right _ _)
        have hinv' : ((some ts : Option ℤ).toList ++ (some q : Option ℤ).toList
            ++ qs).Pairwise (· < ·) := by
          refine List.Pairwise.sublist ?_ hinv
          simpa using hsub
        obtain ⟨ih1, ih2⟩ := ih (some ts) (some q) hinv'
        refine ⟨ih1, ?_⟩
        intro z hz
        obtain ⟨y, hy, hty⟩ := ih2 ts rfl
        refine ⟨y, hy, ?_⟩
        cases last with
        | none =>
          simp only [curOf] at hz
          injection hz with hz'
          exact hz' ▸ hty
        | some l =>
          simp only [curOf] at hz
          injection hz with hz'
          rw [← hz']
          simp only [Option.toList_some, List.singleton_append, List.cons_append] at hinv
          have hlts : l < ts := (List.pairwise_cons.mp hinv).1 ts (by simp)
          exact le_trans hlts.le hty
      · simp only [advanceFrames, if_neg hlt]
        exact ⟨hinv, fun z hz => ⟨z, hz, le_refl z⟩⟩

lemma getFrameForTime_step (s : ProviderState) (t : ℚ) (hinv : ProviderInv s) :
    ProviderInv (getFrameForTime s t).2
    ∧ (getFrameForTime s t).1 = heldFrame (getFrameForTime s t).2
    ∧ ∀ z, heldFrame s = some z →
        ∃ y, (getFrameForTime s t).1 = some y ∧ z ≤ y := by
  unfold getFrameForTime
  cases hn : s.nextFrame with
  | some n =>
    have hinv0 : (s.lastFrame.toList ++ (some n : Option ℤ).toList
        ++ s.queue).Pairwise (· < ·) := by
      rw [← hn]
      exact hinv
    obtain ⟨h1, h2⟩ := advanceFrames_spec s.queue s.lastFrame (some n)
      (round (t * 1000000)) hinv0
    refine ⟨h1, rfl, ?_⟩
    intro z hz
    refine h2 z ?_
    rw [heldFrame, hn] at hz
    exact hz
  | none =>
    have hq : s.lastFrame.toList ++ (s.queue.head?).toList ++ s.queue.tail
        = s.lastFrame.toList ++ (none : Option ℤ).toList ++ s.queue := by
      cases s.queue <;> simp
    have hinv0 : (s.lastFrame.toList ++ (s.queue.head?).toList
        ++ s.queue.tail).Pairwise (· < ·) := by
      rw [hq, ← hn]
      exact hinv
    obtain ⟨h1, h2⟩ := advanceFrames_spec s.queue.tail s.lastFrame s.queue.head?
      (round (t * 1000000)) hinv0
    refine ⟨h1, rfl, ?_⟩
    intro z hz
    refine h2 z ?_
    rw [heldFrame, hn] at hz
    cases hl : s.lastFrame with
    | some l =>
      rw [hl] at hz
      simp only [curOf] at hz ⊢
      exact hz
    | none =>
      rw [hl] at hz
      simp only [curOf] at hz
      exact absurd hz (by simp)

lemma runRequests_mono (reqs : List ℚ) (s : ProviderState) (hinv : ProviderInv s) :
    (runRequests s reqs).Pairwise
      (fun a b => ∀ x y, a = some x → b = some y → x ≤ y)
    ∧ ∀ z, heldFrame s = some z →
        ∀ o ∈ runRequests s reqs, ∀ y, o = some y → z ≤ y := by
  induction reqs generalizing s with
  | nil => simp [runRequests]
  | cons t ts ih =>
    obtain ⟨hinv', hret, hmono⟩ := getFrameForTime_step s t hinv
    obtain ⟨ihp, ihm⟩ := ih (getFrameForTime s t).2 hinv'
    constructor
    · rw [runRequests]
      refine List.Pairwise.cons ?_ ihp
      intro o ho x y hx hy
      have hheld : heldFrame (getFrameForTime s t).2 = some x := by
        rw [← hret]
        exact hx
      exact ihm x hheld o ho y hy
    · intro z hz o ho
      rw [runRequests] at ho
      rcases List.mem_cons.mp ho with rfl | ho2
      · obtain ⟨y', hy', hzy'⟩ := hmono z hz
        intro y hy
        rw [hy'] at hy
        injection hy with hy
        subst hy
        exact hzy'
      · obtain ⟨y', hy', hzy'⟩ := hmono z hz
        intro y hy
        have hheld : heldFrame (getFrameForTime s t).2 = some y' := by
          rw [← hret]
          exact hy'
        exact le_trans hzy' (ihm y' hheld o ho2 y hy)

/-- **C3.** For every underlying decoded-frame stream with strictly
increasing timestamps and every sequence of non-decreasing requests, the
frames returned across the sequence have non-decreasing timestamps: no
returned frame is older than a previously returned frame. -/
theorem frameProvider_monotone (stream : List ℤ) (reqs : List ℚ)
    (hstream : stream.Chain' (· < ·)) (hreqs : reqs.Chain' (· ≤ ·)) :
    (runRequests ⟨none, none, stream⟩ reqs).Pairwise
      (fun a b => ∀ x y, a = some x → b = some y → x ≤ y) :=
  (runRequests_mono reqs ⟨none, none, stream⟩
    (by simpa [ProviderInv] using List.chain'_iff_pairwise.mp hstream)).1

/-- Witness for `frameProvider_monotone`: frames at 0 µs and 1 s, requests at
0 s, 0.5 s and 2 s. -/
theorem frameProvider_monotone_witness :
    (runRequests ⟨none, none, [0, 1000000]⟩ [0, 1/2, 2]).Pairwise
      (fun a b => ∀ x y, a = some x → b = some y → x ≤ y) :=
  frameProvider_monotone [0, 1000000] [0, 1/2, 2]
    (by norm_num [List.chain'_cons, List.chain'_singleton])
    (by norm_num [List.chain'_cons, List.chain'_singleton])

/-- **C2, counterexample.** A provider over a single frame at 0 µs: after a
request at 1 s the stream is exhausted (queue drained, no lookahead frame,
pulling yields nothing), yet the next request at 2 s returns the retained
last frame `some 0`, not `null`. -/
theorem getFrameForTime_exhausted_counterexample :
    ((getFrameForTime ⟨none, none, [0]⟩ 1).2.queue = []
      ∧ (getFrameForTime ⟨none, none, [0]⟩ 1).2.nextFrame = none)
    ∧ (getFrameForTime (getFrameForTime ⟨none, none, [0]⟩ 1).2 2).1 = some 0
    ∧ (getFrameForTime (getFrameForTime ⟨none, none, [0]⟩ 1).2 2).1 ≠ none := by
  have hmain : (getFrameForTime (getFrameForTime ⟨none, none, [0]⟩ 1).2 2).1 = some 0 := by
    norm_num [getFrameForTime, pullFrame, advanceFrames, curOf, round_eq]
  refine ⟨⟨?_, ?_⟩, hmain, by rw [hmain]; simp⟩ <;>
    norm_num [getFrameForTime, pullFrame, advanceFrames, curOf, round_eq]

/-- **C2, amended.** Once the decoded-frame stream is exhausted (the queue is
drained and no lookahead frame is held), `getFrameForTime` returns the most
recently held frame, and `null` exactly when no frame was ever decoded (the
`lastFrame` slot is also empty). -/
theorem getFrameForTime_exhausted (s : ProviderState) (t : ℚ)
    (hq : s.queue = []) (hn : s.nextFrame = none) :
    (getFrameForTime s t).1 = s.lastFrame := by
  unfold getFrameForTime
  rw [hn, hq]
  simp only [pullFrame, List.head?_nil, List.tail_nil, advanceFrames]
  cases s.lastFrame <;> rfl

/-- Witness for `getFrameForTime_exhausted`: an exhausted provider holding a
last frame at 5 µs returns it; one that never held a frame returns `null`. -/
theorem getFrameForTime_exhausted_witness :
    (getFrameForTime ⟨some 5, none, []⟩ 3).1 = some 5
    ∧ (getFrameForTime ⟨none, none, []⟩ 3).1 = none :=
  ⟨getFrameForTime_exhausted ⟨some 5, none, []⟩ 3 rfl rfl,
    getFrameForTime_exhausted ⟨none, none, []⟩ 3 rfl rfl⟩

end ScreenArc

